import Mathlib

/-!
Verification of the core of the Koto scripting language implementation
(lexer, parser bookkeeping, runtime iterators, module loader) against its
natural-language specification.  All definitions are shallow embeddings of
the corresponding Rust functions; file and line references point into the
repository sources.
-/

namespace Koto

/-! ## Tokens (lexer.rs, `enum Token`) -/

/-- The token kinds produced by the lexer, mirroring `Token` in lexer.rs. -/
inductive Token where
  | error
  | whitespace
  | newLine
  | newLineIndented
  | commentSingle
  | commentMulti
  | number
  | id
  | singleQuote
  | doubleQuote
  | stringLiteral
  | at_
  | colon
  | comma
  | dollar
  | dot
  | ellipsis
  | function
  | roundOpen
  | roundClose
  | squareOpen
  | squareClose
  | curlyOpen
  | curlyClose
  | wildcard
  | range
  | rangeInclusive
  | add
  | subtract
  | multiply
  | divide
  | modulo
  | assign
  | assignAdd
  | assignSubtract
  | assignMultiply
  | assignDivide
  | assignModulo
  | equal
  | notEqual
  | greater
  | greaterOrEqual
  | less
  | lessOrEqual
  | pipe
  | and_
  | break_
  | catch_
  | continue_
  | debug
  | else_
  | elseIf
  | export_
  | false_
  | finally_
  | for_
  | from_
  | if_
  | import_
  | in_
  | loop
  | match_
  | not_
  | num2
  | num4
  | or_
  | return_
  | switch
  | then_
  | throw_
  | true_
  | try_
  | until_
  | while_
  | yield
  deriving DecidableEq, Repr

/-! ## Runtime values (value.rs / value_iterator.rs)

Only the variants needed by the iterator claims are modelled.  Numbers are
`f64` in the source; the claims below only ever involve integer-valued
numbers, so they are embedded as `Int`. -/

/-- Runtime values, the subset of `Value` relevant to iteration. -/
inductive Value where
  | empty
  | bool (b : Bool)
  | number (n : Int)
  | str (s : String)
  | list (elements : List Value)
  | registerList (start count : Nat)

/-- `IntRange` from value_iterator.rs: the runtime representation of an
integer range (both bounds are `isize` in the source). -/
structure IntRange where
  start : Int
  end_ : Int
  deriving DecidableEq, Repr

/-- Output values of a `ValueIterator`, mirroring `ValueIteratorOutput`. -/
inductive ValueIteratorOutput where
  | value (v : Value)
  | valuePair (k v : Value)

/-- Runtime errors surfaced through iterators (`Error` in the runtime crate);
only the constructor used by value_iterator.rs is modelled. -/
inductive RuntimeError where
  | errorWithoutLocation (message : String)
  deriving DecidableEq, Repr

/-! ### `ValueIterator::next`, `Iterable::Range` branch
(value_iterator.rs lines 97-118).

The iterator state is the `index` field; `rangeNext` returns the produced
item together with the updated index (the index is only incremented when an
item is produced, exactly as in the source). -/

/-- One step of the range iterator: `ValueIterator::next` for
`Iterable::Range`, returning the produced integer (the source wraps it as
`Number`) and the updated `index`. -/
def rangeNext (r : IntRange) (index : Nat) : Option Int × Nat :=
  if r.start ≤ r.end_ then
    -- ascending range
    let result := r.start + (index : Int)
    if result < r.end_ then (some result, index + 1) else (none, index)
  else
    -- descending range
    let result := r.start - (index : Int) - 1
    if r.end_ ≤ result then (some result, index + 1) else (none, index)

/-- Modelled from the spec: the bytecode VM's construction of the runtime
`IntRange` for an exclusive range expression `start..end`.  The VM itself
(vm.rs, declared in the runtime crate's lib.rs) is not among the staged
sources; the spec's only bound adjustment concerns descending *inclusive*
ranges ("The reference compiles descending inclusive by adjusting both
ends"), so an exclusive range stores its written bounds unadjusted —
exactly what the VM's own tests assert (vm_tests.rs, `ranges::range`:
`0..-10` evaluates to `Range(IntRange { start: 0, end: -10 })`). -/
def vmExclusiveRange (start end_ : Int) : IntRange :=
  ⟨start, end_⟩

/-- Repeatedly calling `next` on a range iterator, collecting the produced
values.  `fuel` bounds the number of calls; once `next` returns `none` the
iteration stops. -/
def rangeIterOutputs (r : IntRange) : Nat → Nat → List Int
  | 0, _ => []
  | fuel + 1, index =>
    match rangeNext r index with
    | (some v, index2) => v :: rangeIterOutputs r fuel index2
    | (none, _) => []

/-! ### `ValueIterator::next`, `Iterable::List` and `Iterable::Map` branches
(value_iterator.rs lines 119-138).

Lists and maps are shared containers with interior mutability, so the
contents seen by a given call are a parameter: successive calls on the same
iterator may observe different contents if the shared container was mutated
in between.  The iterator's own state is just `index`, which these branches
increment on every call, including calls that return `none`. -/

/-- One step of the list iterator: returns `list.data().get(index)` and the
incremented index (the source increments `self.index` unconditionally). -/
def listIterNext (data : List Value) (index : Nat) : Option Value × Nat :=
  (data.get? index, index + 1)

/-- One step of the map iterator over the insertion-ordered entries:
`map.data().get_index(index)`, with the index incremented unconditionally. -/
def mapIterNext (data : List (Value × Value)) (index : Nat) :
    Option ValueIteratorOutput × Nat :=
  match data.get? index with
  | some (k, v) => (some (.valuePair k v), index + 1)
  | none => (none, index + 1)

/-! ### `ValueIterator::next`, `Iterable::Generator` branch
(value_iterator.rs lines 139-161).

The branch inspects the result of `vm.continue_running()`; the VM's register
file is modelled as a list so that the `RegisterList` arm's
`register_slice(start, count)` can be taken. -/

/-- The generator branch of `ValueIterator::next`, as a function of the
resumed VM's result.  `regs` models the VM register file for the
`RegisterList` arm. -/
def generatorNext (regs : List Value) (resumeResult : Except RuntimeError Value) :
    Option (Except RuntimeError ValueIteratorOutput) :=
  match resumeResult with
  | .ok Value.empty => none
  | .ok (Value.registerList start count) =>
      some (.ok (.value (Value.list ((regs.drop start).take count))))
  | .ok result => some (.ok (.value result))
  | .error e => some (.error e)

/-! ## Lexer: newline handling (`TokenLexer::consume_newline`, lexer.rs
lines 198-231)

The function is called with the character stream positioned at the `\r` or
`\n` that starts the line break.  It consumes the line break plus the
following run of spaces/tabs, records the count of those spaces/tabs as the
line's indent, and emits `NewLine` when the indent is zero and
`NewLineIndented` otherwise.  A bare `\r` not followed by `\n` yields the
`Error` token. -/

/-- `is_whitespace` from lexer.rs: only spaces and tabs. -/
def isWhitespaceChar (c : Char) : Bool :=
  c = ' ' || c = '\t'

/-- `consume_and_count(chars, is_whitespace)`: length of the leading run of
spaces/tabs; each space and each tab counts as one. -/
def countLeadingWhitespace : List Char → Nat
  | [] => 0
  | c :: rest =>
    if isWhitespaceChar c then countLeadingWhitespace rest + 1 else 0

/-- `TokenLexer::consume_newline`: returns the emitted token together with
the indent value stored in the lexer (`consumed_bytes - newline_bytes`). -/
def consumeNewline (cs : List Char) : Token × Nat :=
  -- an optional leading carriage return is consumed first
  let carriage : List Char × Bool :=
    match cs with
    | '\r' :: rest => (rest, true)
    | _ => (cs, false)
  -- the next character must be a line feed, otherwise the Error token
  match carriage.fst with
  | '\n' :: rest =>
    let indent := countLeadingWhitespace rest
    (if indent = 0 then Token.newLine else Token.newLineIndented, indent)
  | _ => (Token.error, 0)

/-! ## Lexer: identifiers and keywords
(`TokenLexer::consume_id_or_keyword`, lexer.rs lines 433-502)

The `else` / `else if` check runs before anything else; the remaining
keyword checks are skipped when the previously emitted token was `Dot`, so
that keywords can be used as lookup keys. -/

/-- The `check_keyword!` sequence from `consume_id_or_keyword` (every
keyword except `else`, which is handled before the keyword table). -/
def keywordToken (id : String) : Option Token :=
  if id = "and" then some .and_
  else if id = "break" then some .break_
  else if id = "catch" then some .catch_
  else if id = "continue" then some .continue_
  else if id = "debug" then some .debug
  else if id = "export" then some .export_
  else if id = "false" then some .false_
  else if id = "finally" then some .finally_
  else if id = "for" then some .for_
  else if id = "from" then some .from_
  else if id = "if" then some .if_
  else if id = "import" then some .import_
  else if id = "in" then some .in_
  else if id = "loop" then some .loop
  else if id = "match" then some .match_
  else if id = "not" then some .not_
  else if id = "num2" then some .num2
  else if id = "num4" then some .num4
  else if id = "or" then some .or_
  else if id = "return" then some .return_
  else if id = "switch" then some .switch
  else if id = "then" then some .then_
  else if id = "throw" then some .throw_
  else if id = "true" then some .true_
  else if id = "try" then some .try_
  else if id = "until" then some .until_
  else if id = "while" then some .while_
  else if id = "yield" then some .yield
  else none

/-- `TokenLexer::consume_id_or_keyword` as a function of the matched
identifier slice, whether the source continues with `" if"` after an `else`
(the lookahead on line 446), and the previously emitted token. -/
def consumeIdOrKeyword (id : String) (elseFollowedByIf : Bool)
    (previousToken : Option Token) : Token :=
  if id = "else" then
    if elseFollowedByIf then Token.elseIf else Token.else_
  else if previousToken ≠ some Token.dot then
    match keywordToken id with
    | some keyword => keyword
    | none => Token.id
  else
    -- If no keyword matched, then consume as an Id
    Token.id

/-! ## Lexer: string literal bodies
(`TokenLexer::consume_string_literal`, lexer.rs lines 299-362)

The lexer scans the literal body without validating escapes: after a `\` it
merely skips the next character when it is `$`, `\`, or the active quote.
It emits `StringLiteral` on reaching the closing quote or a `$`, and the
`Error` token on a bare `\r` or on running out of input. -/

/-- `TokenLexer::consume_string_literal`: the token emitted for a literal
body that starts at `cs`, given the active quote character. -/
def consumeStringLiteral (stringQuote : Char) : List Char → Token
  | [] => Token.error
  | c :: rest =>
    if c = stringQuote then Token.stringLiteral
    else if c = '$' then Token.stringLiteral
    else if c = '\\' then
      match rest with
      | d :: rest2 =>
        if d = '$' || d = '\\' || d = stringQuote then
          consumeStringLiteral stringQuote rest2
        else
          consumeStringLiteral stringQuote (d :: rest2)
      | [] => Token.error
    else if c = '\r' then
      match rest with
      | d :: rest2 =>
        if d = '\n' then consumeStringLiteral stringQuote rest2 else Token.error
      | [] => Token.error
    else
      consumeStringLiteral stringQuote rest
  termination_by cs => cs.length
  decreasing_by all_goals simp_arith [List.length]

/-! ## Parser: string escape decoding
(`Parser::parse_string`, parser.rs lines 2651-2771)

Escape sequences in string literals are decoded by the parser, not the
lexer: the `StringLiteral` slices produced by the lexer are re-scanned here
and malformed escapes are reported as `SyntaxError` variants of
`ParserError`. -/

/-- The `SyntaxError` variants produced by `parse_string` (a subset of the
parser's `SyntaxError` enum). -/
inductive SyntaxError where
  | asciiEscapeCodeOutOfRange
  | unexpectedCharInNumericEscapeCode
  | unterminatedNumericEscapeCode
  | unicodeEscapeCodeOutOfRange
  | unexpectedEscapeInString
  deriving DecidableEq, Repr

/-- Rust's `char::is_ascii_hexdigit`. -/
def isAsciiHexDigit (c : Char) : Bool :=
  ('0' ≤ c && c ≤ '9') || ('a' ≤ c && c ≤ 'f') || ('A' ≤ c && c ≤ 'F')

/-- Rust's `char::to_digit(16)` on a hex digit (0 elsewhere; the source only
calls it after `is_ascii_hexdigit` checks). -/
def hexDigitValue (c : Char) : Nat :=
  if '0' ≤ c && c ≤ '9' then c.toNat - '0'.toNat
  else if 'a' ≤ c && c ≤ 'f' then c.toNat - 'a'.toNat + 10
  else if 'A' ≤ c && c ≤ 'F' then c.toNat - 'A'.toNat + 10
  else 0

/-- Rust's `char::is_whitespace` (the Unicode White_Space property), used by
the line-continuation escape to skip leading whitespace. -/
def charIsWhitespace (c : Char) : Bool :=
  let n := c.toNat
  (0x09 ≤ n && n ≤ 0x0D) || n = 0x20 || n = 0x85 || n = 0xA0 || n = 0x1680 ||
    (0x2000 ≤ n && n ≤ 0x200A) || n = 0x2028 || n = 0x2029 || n = 0x202F ||
    n = 0x205F || n = 0x3000

/-- The `while chars.peek() is whitespace { chars.next() }` loop following a
line-continuation escape. -/
def skipLeadingWhitespace (cs : List Char) : List Char :=
  cs.dropWhile charIsWhitespace

/-- Rust's `char::from_u32(code).is_some()`: `code` is a valid scalar
value. -/
def charFromU32Valid (code : Nat) : Bool :=
  code < 0xD800 || (0xDFFF < code && code < 0x110000)

/-- The escape-decoding loop of `Parser::parse_string` applied to a
`StringLiteral` slice, producing the decoded literal text.  The `\u{...}`
accumulator is a `u32` in the source, hence the reduction modulo `2^32`. -/
def parseStringEscapes : List Char → Except SyntaxError (List Char)
  | [] => .ok []
  | c :: rest =>
    if c = '\\' then
      match rest with
      | [] => .error .unexpectedEscapeInString
      | e :: rest2 =>
        if e = '\n' ∨ e = '\r' then
          parseStringEscapes (skipLeadingWhitespace rest2)
        else if e = '\\' then (fun l => '\\' :: l) <$> parseStringEscapes rest2
        else if e = '\'' then (fun l => '\'' :: l) <$> parseStringEscapes rest2
        else if e = '"' then (fun l => '"' :: l) <$> parseStringEscapes rest2
        else if e = 'n' then (fun l => '\n' :: l) <$> parseStringEscapes rest2
        else if e = 'r' then (fun l => '\r' :: l) <$> parseStringEscapes rest2
        else if e = 't' then (fun l => '\t' :: l) <$> parseStringEscapes rest2
        else if e = 'x' then
          match rest2 with
          | [] => .error .unterminatedNumericEscapeCode
          | c1 :: rest3 =>
            if isAsciiHexDigit c1 then
              match rest3 with
              | [] => .error .unterminatedNumericEscapeCode
              | c2 :: rest4 =>
                if isAsciiHexDigit c2 then
                  let d := hexDigitValue c1 * 16 + hexDigitValue c2
                  if d ≤ 0x7f then
                    (fun l => Char.ofNat d :: l) <$> parseStringEscapes rest4
                  else
                    .error .asciiEscapeCodeOutOfRange
                else
                  .error .unexpectedCharInNumericEscapeCode
            else
              .error .unexpectedCharInNumericEscapeCode
        else if e = 'u' then
          match rest2 with
          | [] => .error .unterminatedNumericEscapeCode
          | b :: rest3 =>
            if b = '{' then
              let code := (rest3.takeWhile isAsciiHexDigit).foldl
                (fun code c => (code * 16 + hexDigitValue c) % 4294967296) 0
              match hdrop : rest3.dropWhile isAsciiHexDigit with
              | [] => .error .unterminatedNumericEscapeCode
              | d :: rest4 =>
                if d = '}' then
                  if charFromU32Valid code then
                    (fun l => Char.ofNat code :: l) <$> parseStringEscapes rest4
                  else
                    .error .unicodeEscapeCodeOutOfRange
                else
                  .error .unexpectedCharInNumericEscapeCode
            else
              .error .unexpectedCharInNumericEscapeCode
        else
          .error .unexpectedEscapeInString
    else
      (fun l => c :: l) <$> parseStringEscapes rest
  termination_by cs => cs.length
  decreasing_by
    all_goals simp_wf
    all_goals try omega
    all_goals
      have hdw : ∀ (p : Char → Bool) (l : List Char),
          (l.dropWhile p).length ≤ l.length := by
        intro p l
        induction l with
        | nil => simp [List.dropWhile]
        | cons c rest ih =>
          simp only [List.dropWhile]
          split
          · exact Nat.le_succ_of_le ih
          · simp
    all_goals
      first
      | (simp only [skipLeadingWhitespace]
         exact lt_of_le_of_lt (hdw _ _) (by omega))
      | (have h2 := hdw isAsciiHexDigit rest
         rw [hdrop] at h2
         simp only [List.length_cons] at h2
         omega)

/-! ## Parser: frame capture bookkeeping
(`Frame`, parser.rs lines 56-109; `Parser::parse_assign_expression` lines
711-727; `Parser::parse_function` lines 362-492)

`ConstantIndex` is the parser's interned-identifier index.  The source uses
`HashSet`s; they are embedded as duplicate-free lists with the same
membership semantics. -/

abbrev ConstantIndex := Nat

/-- `HashSet::insert`. -/
def insertSet (id : ConstantIndex) (s : List ConstantIndex) : List ConstantIndex :=
  if id ∈ s then s else id :: s

/-- The parser's per-function `Frame` (parser.rs lines 56-69). -/
structure Frame where
  containsYield : Bool := false
  idsAssignedInScope : List ConstantIndex := []
  accessedNonLocals : List ConstantIndex := []
  pendingAccesses : List ConstantIndex := []
  pendingAssignments : List ConstantIndex := []

/-- `Frame::add_id_access`. -/
def Frame.addIdAccess (f : Frame) (id : ConstantIndex) : Frame :=
  { f with pendingAccesses := insertSet id f.pendingAccesses }

/-- `Frame::remove_id_access`. -/
def Frame.removeIdAccess (f : Frame) (id : ConstantIndex) : Frame :=
  { f with pendingAccesses := f.pendingAccesses.filter (fun x => x ≠ id) }

/-- `Frame::add_id_assignment`. -/
def Frame.addIdAssignment (f : Frame) (id : ConstantIndex) : Frame :=
  { f with pendingAssignments := insertSet id f.pendingAssignments }

/-- `Frame::finish_expression` (parser.rs lines 99-108): pending accesses
that are not locally assigned become non-local accesses, checked against the
ids assigned in scope *before* the pending assignments are merged in. -/
def Frame.finishExpression (f : Frame) : Frame :=
  { f with
    accessedNonLocals :=
      f.pendingAccesses.foldl
        (fun acc id =>
          if id ∈ f.idsAssignedInScope then acc else insertSet id acc)
        f.accessedNonLocals
    idsAssignedInScope :=
      f.pendingAssignments.foldl (fun acc id => insertSet id acc)
        f.idsAssignedInScope
    pendingAccesses := []
    pendingAssignments := [] }

/-- `Frame::local_count`. -/
def Frame.localCount (f : Frame) : Nat :=
  f.idsAssignedInScope.length

/-- `Frame::add_nested_accessed_non_locals` (parser.rs lines 79-85). -/
def Frame.addNestedAccessedNonLocals (f nested : Frame) : Frame :=
  nested.accessedNonLocals.foldl
    (fun acc nonLocal =>
      if nonLocal ∈ acc.pendingAssignments then acc else acc.addIdAccess nonLocal)
    f

/-- The frame operations the parser performs on the function frame while
parsing the body line `x = x + 1`:

* the left-hand `x` term is parsed: `add_id_access x`
  (parse_id_expression, line 941);
* the `=` is found and `parse_assign_expression` runs for an `Id` target:
  `add_id_assignment x` then `remove_id_access x` (lines 715-716);
* the right-hand `x` term is parsed: `add_id_access x`;
* `parse_line` ends the expression: `finish_expression` (line 512). -/
def parseAssignSelfIncrement (x : ConstantIndex) (f : Frame) : Frame :=
  ((((f.addIdAccess x).addIdAssignment x).removeIdAccess x).addIdAccess x).finishExpression

/-! ## Parser: binary-operator precedence climbing
(`operator_precedence`, parser.rs lines 3098-3121;
`parse_expression_continued`, lines 633-699)

Each operator token is mapped to a `(left, right)` binding-power pair; an
operator is consumed when its left power is at least the current minimum
precedence, and its right operand is parsed with the right power as the new
minimum.  A pair with `left < right` gives left associativity, `left >
right` right associativity. -/

/-- `MIN_PRECEDENCE_AFTER_PIPE` (parser.rs line 3105). -/
def minPrecedenceAfterPipe : Nat := 3

/-- `operator_precedence` (parser.rs lines 3107-3121). -/
def operatorPrecedence (op : Token) : Option (Nat × Nat) :=
  match op with
  | .pipe => some (1, 2)
  | .or_ => some (minPrecedenceAfterPipe, 4)
  | .and_ => some (5, 6)
  -- Chained comparisons require right-associativity
  | .equal | .notEqual => some (8, 7)
  | .greater | .greaterOrEqual | .less | .lessOrEqual => some (10, 9)
  | .add | .subtract => some (11, 12)
  | .multiply | .divide | .modulo => some (13, 14)
  | _ => none

/-- The binary-expression fragment of the AST built by `push_ast_op`:
terms are atoms, internal nodes record the operator token. -/
inductive BinExpr where
  | atom (n : Nat)
  | binOp (op : Token) (lhs rhs : BinExpr)
  deriving DecidableEq, Repr

/-- Input tokens for the expression parser model: terms (the result of
`parse_term`) and operator tokens. -/
inductive PTok where
  | atom (n : Nat)
  | op (t : Token)
  deriving DecidableEq, Repr

mutual

/-- `Parser::parse_expression_start` restricted to the binary-operator
grammar: parse a term, then continue with `parse_expression_continued`.
`fuel` only bounds the recursion depth. -/
def parseExprStart (fuel : Nat) (minPrecedence : Nat) (toks : List PTok) :
    Option (BinExpr × List PTok) :=
  match fuel, toks with
  | fuel + 1, PTok.atom n :: rest =>
    parseExprContinued fuel (BinExpr.atom n) minPrecedence rest
  | _, _ => none

/-- `Parser::parse_expression_continued` (parser.rs lines 633-699), the
precedence-climbing loop: consume an operator whose left priority is at
least `minPrecedence`, parse its right-hand side with the operator's right
priority as the new minimum, combine the two sides with `push_ast_op`, and
repeat with the original minimum. -/
def parseExprContinued (fuel : Nat) (lastLhs : BinExpr) (minPrecedence : Nat)
    (toks : List PTok) : Option (BinExpr × List PTok) :=
  match fuel, toks with
  | fuel + 1, PTok.op t :: rest =>
    (match operatorPrecedence t with
     | some (leftPriority, rightPriority) =>
       if minPrecedence ≤ leftPriority then
         match parseExprStart fuel rightPriority rest with
         | some (rhs, rest2) =>
           parseExprContinued fuel (BinExpr.binOp t lastLhs rhs) minPrecedence rest2
         | none => none
       else
         some (lastLhs, PTok.op t :: rest)
     | none => some (lastLhs, PTok.op t :: rest))
  | 0, PTok.op _ :: _ => none
  | _, toks => some (lastLhs, toks)

end

/-- Parsing a complete expression (`parse_expression`, parser.rs line 589:
minimum precedence 0), requiring all tokens to be consumed. -/
def parseBinaryExpr (toks : List PTok) : Option BinExpr :=
  match parseExprStart (2 * toks.length + 2) 0 toks with
  | some (e, []) => some e
  | _ => none

/-! ## Lexer: the peek buffer (`KotoLexer`, lexer.rs lines 729-866)

`TokenLexer` is a pure function of its own state, so the sequence of tokens
it produces for a fixed source is a fixed sequence; it is modelled as a
function from the number of tokens already produced to the next token.
`KotoLexer` wraps it with the peek buffer: `lexPos` counts the tokens drawn
from the underlying lexer, `peekedTokens` and `currentPeekIndex` mirror the
fields of the same name. -/

/-- The token sequence produced by a `TokenLexer` for one source text:
`tokens n` is the result of the `(n+1)`-th call to `TokenLexer::next`. -/
structure TokenStream where
  tokens : Nat → Option Token

/-- The lookahead state of `KotoLexer`. -/
structure KLexer where
  lexPos : Nat
  peekedTokens : List (Option Token)
  currentPeekIndex : Nat

/-- `KotoLexer::new`: empty peek buffer. -/
def KLexer.init : KLexer := ⟨0, [], 0⟩

/-- The `while` loop of `KotoLexer::peek_n` (lexer.rs lines 786-800):
draw tokens from the underlying lexer into the peek buffer until more than
`n` unconsumed peeked tokens are buffered. -/
def KLexer.fill (s : TokenStream) (n : Nat) (l : KLexer) : KLexer :=
  if h : l.peekedTokens.length - l.currentPeekIndex ≤ n then
    KLexer.fill s n
      { l with
        peekedTokens := l.peekedTokens ++ [s.tokens l.lexPos]
        lexPos := l.lexPos + 1 }
  else l
  termination_by n + 1 + l.currentPeekIndex - l.peekedTokens.length
  decreasing_by simp_wf; omega

/-- `KotoLexer::peek_n` (lexer.rs lines 785-802).  The source indexes the
buffer directly; the `getD` default is unreachable because the loop
guarantees `currentPeekIndex + n` is in bounds. -/
def KLexer.peekN (s : TokenStream) (n : Nat) (l : KLexer) : Option Token × KLexer :=
  let l2 := KLexer.fill s n l
  (l2.peekedTokens.getD (l2.currentPeekIndex + n) none, l2)

/-- `KotoLexer::next` (lexer.rs lines 850-866): serve from the peek buffer
when it is non-empty, clearing it once fully consumed; otherwise draw from
the underlying lexer. -/
def KLexer.nextToken (s : TokenStream) (l : KLexer) : Option Token × KLexer :=
  if l.peekedTokens.isEmpty then
    (s.tokens l.lexPos, { l with lexPos := l.lexPos + 1 })
  else
    let result := l.peekedTokens.getD l.currentPeekIndex none
    let newIndex := l.currentPeekIndex + 1
    if newIndex = l.peekedTokens.length then
      (result, { l with peekedTokens := [], currentPeekIndex := 0 })
    else
      (result, { l with currentPeekIndex := newIndex })

/-- An interleaving of `peek_n` and `next` calls made by the parser. -/
inductive LexOp where
  | peek (n : Nat)
  | next

/-- The lexer state after an interleaving of calls. -/
def runLexOps (s : TokenStream) : List LexOp → KLexer → KLexer
  | [], l => l
  | LexOp.peek n :: ops, l => runLexOps s ops (KLexer.peekN s n l).snd
  | LexOp.next :: ops, l => runLexOps s ops (KLexer.nextToken s l).snd

/-- The tokens returned by the `next` calls of an interleaving, in order. -/
def nextOutputs (s : TokenStream) : List LexOp → KLexer → List (Option Token)
  | [], _ => []
  | LexOp.peek n :: ops, l => nextOutputs s ops (KLexer.peekN s n l).snd
  | LexOp.next :: ops, l =>
    (KLexer.nextToken s l).fst :: nextOutputs s ops (KLexer.nextToken s l).snd

/-- The number of `next` calls in an interleaving. -/
def numNexts : List LexOp → Nat
  | [] => 0
  | LexOp.peek _ :: ops => numNexts ops
  | LexOp.next :: ops => numNexts ops + 1

/-- The number of tokens observationally consumed: tokens drawn from the
underlying lexer minus the unconsumed ones still buffered. -/
def KLexer.consumed (l : KLexer) : Nat :=
  l.lexPos - (l.peekedTokens.length - l.currentPeekIndex)

/-- `k` successive `next` calls. -/
def applyNexts (s : TokenStream) : Nat → KLexer → KLexer
  | 0, l => l
  | k + 1, l => applyNexts s k (KLexer.nextToken s l).snd

/-- The invariant connecting a reachable `KotoLexer` state with the
underlying token sequence: the buffer's unconsumed part holds exactly the
tokens between `consumed` and `lexPos`. -/
def KLexerInv (s : TokenStream) (l : KLexer) : Prop :=
  l.currentPeekIndex ≤ l.peekedTokens.length ∧
  (l.peekedTokens = [] → l.currentPeekIndex = 0) ∧
  (l.peekedTokens ≠ [] → l.currentPeekIndex < l.peekedTokens.length) ∧
  l.peekedTokens.length - l.currentPeekIndex ≤ l.lexPos ∧
  ∀ i, l.currentPeekIndex ≤ i → i < l.peekedTokens.length →
    l.peekedTokens.getD i none
      = s.tokens (KLexer.consumed l + (i - l.currentPeekIndex))

/-! ## Loader (`Loader::compile_module`, loader.rs lines 153-218)

Paths are modelled as component lists; the file system is a pure snapshot
supplying the operations `compile_module` performs on it.  Compilation
itself (parser and compiler) is modelled by its effect on the cache: the
chunk stored for a module is determined by the script text read from the
file and the path the loader compiled it under. -/

abbrev ModulePath := List String

/-- `Path::parent`. -/
def parentPath : ModulePath → Option ModulePath
  | [] => none
  | ps => some ps.dropLast

/-- `Path::with_extension` on a single component: the file stem (the part
before the final dot, if any) followed by `.ext`, computed over the
component's characters. -/
def setExtension (s ext : String) : String :=
  match (s.data.splitOn '.').dropLast with
  | [] => ⟨s.data ++ '.' :: ext.data⟩
  | stemParts => ⟨(List.intercalate ['.'] stemParts) ++ '.' :: ext.data⟩

/-- `Path::with_extension` on the modelled path. -/
def withExtension (p : ModulePath) (ext : String) : ModulePath :=
  match p.getLast? with
  | none => p
  | some last => p.dropLast ++ [setExtension last ext]

/-- A compiled chunk as cached by the loader; its identity is determined by
the script text and the path it was compiled under (`Loader::compile`,
loader.rs lines 112-136). -/
structure Chunk where
  script : String
  sourcePath : Option ModulePath
  deriving DecidableEq, Repr

/-- `Loader::compile` in the success case. -/
def compileScript (script : String) (scriptPath : Option ModulePath) : Chunk :=
  ⟨script, scriptPath⟩

/-- The `Io` variant of `LoaderErrorType` (the only one `compile_module`'s
path handling produces in the model, where compilation succeeds). -/
inductive LoaderErrType where
  | ioError (msg : String)
  deriving DecidableEq, Repr

/-- The pure file-system snapshot `compile_module` queries. -/
structure FileSystem where
  canonicalizeFn : ModulePath → Option ModulePath
  isFileFn : ModulePath → Bool
  existsFn : ModulePath → Bool
  readFn : ModulePath → Option String
  currentDir : ModulePath

/-- The loader's chunk cache (`chunks: HashMap<PathBuf, Arc<Chunk>>`). -/
structure Loader where
  chunks : List (ModulePath × Chunk)

/-- `HashMap::get` on the modelled cache. -/
def lookupChunk : List (ModulePath × Chunk) → ModulePath → Option Chunk
  | [], _ => none
  | (p, c) :: rest, key => if p = key then some c else lookupChunk rest key

/-- The `load_module_from_path` closure (loader.rs lines 178-196).  The
returned flag records whether the file was read and compiled (a cache
miss). -/
def loadModuleFromPath (fs : FileSystem) (loader : Loader) (modulePath : ModulePath) :
    Except LoaderErrType ((Chunk × ModulePath) × Loader × Bool) :=
  match lookupChunk loader.chunks modulePath with
  | some chunk => .ok ((chunk, modulePath), loader, false)
  | none =>
    match fs.readFn modulePath with
    | some script =>
      let chunk := compileScript script (some modulePath)
      .ok ((chunk, modulePath), ⟨loader.chunks ++ [(modulePath, chunk)]⟩, true)
    | none => .error (.ioError "File not found")

/-- `Loader::compile_module` (loader.rs lines 153-218): resolve the search
directory (canonicalizing the load-from path when given), locate
`name.koto` or `name/main.koto` under it, and load through the cache. -/
def compileModule (fs : FileSystem) (loader : Loader) (name : ModulePath)
    (loadFromPath : Option ModulePath) :
    Except LoaderErrType ((Chunk × ModulePath) × Loader × Bool) :=
  let pathResult : Except LoaderErrType ModulePath :=
    match loadFromPath with
    | some p =>
      match fs.canonicalizeFn p with
      | some canonicalized =>
        if fs.isFileFn canonicalized then
          match parentPath canonicalized with
          | some parentDir => .ok parentDir
          | none => .error (.ioError "Failed to get parent of provided path")
        else
          .ok canonicalized
      | none => .error (.ioError "canonicalize failed")
    | none => .ok fs.currentDir
  match pathResult with
  | .error e => .error e
  | .ok path =>
    let namedPath := path ++ name
    -- First, check for a neighbouring file with a matching name.
    let modulePath := withExtension namedPath "koto"
    if fs.existsFn modulePath then
      loadModuleFromPath fs loader modulePath
    else
      -- Alternatively, check for a neighbouring directory with a matching
      -- name, that also contains a main file.
      let modulePath2 := withExtension (namedPath ++ ["main"]) "koto"
      if fs.existsFn modulePath2 then
        loadModuleFromPath fs loader modulePath2
      else
        .error (.ioError "Unable to find module")

/-- A concrete file-system snapshot where `m.koto` exists in the current
directory, directory `a` exists, and so the spelling `a/../m.koto` names
the same canonical file as `m.koto`. -/
def cexFileSystem : FileSystem where
  canonicalizeFn := fun p =>
    if p = ["a", "..", "m.koto"] then some ["m.koto"] else some p
  isFileFn := fun p => p = ["m.koto"] || p = ["a", "..", "m.koto"]
  existsFn := fun p => p = ["m.koto"] || p = ["a", "..", "m.koto"]
  readFn := fun p =>
    if p = ["m.koto"] || p = ["a", "..", "m.koto"] then some "x = 1" else none
  currentDir := []

/-! # Theorems -/

/-! ## C2: descending exclusive ranges -/

theorem rangeNext_desc (a b : Int) (h : b < a) (i : Nat) :
    rangeNext (vmExclusiveRange a b) i =
      if (i : Int) < a - b then (some (a - i - 1), i + 1) else (none, i) := by
  simp only [rangeNext, vmExclusiveRange]
  rw [if_neg (by omega)]
  by_cases hc : (i : Int) < a - b
  · rw [if_pos (by omega), if_pos hc]
  · rw [if_neg (by omega), if_neg hc]

theorem rangeIterOutputs_desc (a b : Int) (h : b < a) :
    ∀ (fuel idx : Nat), (a - b).toNat ≤ idx + fuel →
      rangeIterOutputs (vmExclusiveRange a b) fuel idx =
        (List.range ((a - b).toNat - idx)).map
          (fun i => a - ((idx + i : Nat) : Int) - 1) := by
  have htn : (0 : Int) < a - b := by omega
  intro fuel
  induction fuel with
  | zero =>
    intro idx hidx
    have : (a - b).toNat - idx = 0 := by omega
    simp [rangeIterOutputs, this]
  | succ fuel ih =>
    intro idx hidx
    rw [rangeIterOutputs, rangeNext_desc a b h idx]
    by_cases hc : (idx : Int) < a - b
    · have hlt : idx < (a - b).toNat := by omega
      rw [if_pos hc]
      dsimp only
      rw [ih (idx + 1) (by omega)]
      have hrange : (a - b).toNat - idx = ((a - b).toNat - (idx + 1)) + 1 := by omega
      rw [hrange, List.range_succ_eq_map, List.map_cons, List.map_map]
      refine congrArg₂ List.cons ?_ ?_
      · push_cast; ring
      · refine congrArg₂ List.map ?_ rfl
        funext i
        simp only [Function.comp_apply]
        push_cast
        ring
    · have hge : (a - b).toNat ≤ idx := by omega
      rw [if_neg hc]
      have hzero : (a - b).toNat - idx = 0 := by omega
      rw [hzero]
      simp

/-- C2 counterexample: the VM stores the descending exclusive range `5..0`
as `IntRange { start: 5, end: 0 }` with unadjusted bounds (vm_tests.rs,
`ranges::range`), and iterating that value yields `4, 3, 2, 1, 0` — not the
claimed `5, 4, 3, 2, 1`. -/
theorem desc_exclusive_range_counterexample :
    rangeIterOutputs (vmExclusiveRange 5 0) 5 0 = [4, 3, 2, 1, 0]
      ∧ rangeIterOutputs (vmExclusiveRange 5 0) 5 0 ≠ [5, 4, 3, 2, 1] := by
  constructor <;> decide

/-- C2 amended: for a descending exclusive integer range `start..end` with
`start > end`, the runtime value is `IntRange { start, end }` with the
written bounds, and iterating it yields `start - 1, start - 2, ..., end` in
that order; once the index reaches `start - end` every further `next` call
returns `none`.  In particular iterating `5..0` produces `4, 3, 2, 1, 0`. -/
theorem desc_exclusive_range_iteration (a b : Int) (h : b < a) (fuel : Nat)
    (hfuel : (a - b).toNat ≤ fuel) :
    rangeIterOutputs (vmExclusiveRange a b) fuel 0
        = (List.range (a - b).toNat).map (fun i : Nat => a - (i : Int) - 1)
      ∧ ∀ i : Nat, (a - b).toNat ≤ i →
          (rangeNext (vmExclusiveRange a b) i).fst = none := by
  constructor
  · rw [rangeIterOutputs_desc a b h fuel 0 (by omega)]
    rw [Nat.sub_zero]
    refine congrArg₂ List.map ?_ rfl
    funext i
    norm_num
  · intro i hi
    rw [rangeNext_desc a b h i]
    rw [if_neg (by omega)]

/-- Witness for the amended C2 at the instance from the spec's example:
iterating `5..0` produces `4, 3, 2, 1, 0`. -/
theorem desc_exclusive_range_iteration_witness :
    rangeIterOutputs (vmExclusiveRange 5 0) 5 0 = [4, 3, 2, 1, 0] := by
  rw [(desc_exclusive_range_iteration 5 0 (by decide) 5 (by decide)).1]
  decide

/-! ## C7: permanence of iterator exhaustion -/

/-- C7 counterexample: iterator exhaustion is *not* permanent for list
iterators.  A list iterator over a one-element shared list returns `none`
at index 1 (exhausted) while still advancing its index to 2; if the shared
list then grows to three elements, the very next call returns the third
element.  This falsifies the claim that once `next()` returns `None` every
subsequent call does, including when the shared container is mutated. -/
theorem iterator_exhaustion_not_permanent :
    (listIterNext [Value.number 1] 1).fst = none
      ∧ (listIterNext [Value.number 1] 1).snd = 2
      ∧ (listIterNext [Value.number 1, Value.number 2, Value.number 3] 2).fst
          = some (Value.number 3) := by
  refine ⟨rfl, rfl, rfl⟩

/-- C7 amended: exhaustion is permanent for range iterators (a `none`
result leaves the index unchanged and all later indices are exhausted too),
and for list and map iterators whose shared container is unchanged;
list/map iterators advance their index even on exhausted calls, so a
container that grows can make later calls produce elements again. -/
theorem iterator_exhaustion_permanent_amended :
    (∀ (r : IntRange) (i : Nat), (rangeNext r i).fst = none →
        (rangeNext r i).snd = i ∧ ∀ j, i ≤ j → (rangeNext r j).fst = none)
      ∧ (∀ (data : List Value) (i : Nat), (listIterNext data i).fst = none →
          ∀ j, i ≤ j → (listIterNext data j).fst = none)
      ∧ (∀ (data : List (Value × Value)) (i : Nat), (mapIterNext data i).fst = none →
          ∀ j, i ≤ j → (mapIterNext data j).fst = none) := by
  refine ⟨?_, ?_, ?_⟩
  · intro r i hnone
    by_cases hdir : r.start ≤ r.end_
    · by_cases hc : r.start + (i : Int) < r.end_
      · exfalso
        simp [rangeNext, if_pos hdir, if_pos hc] at hnone
      · constructor
        · simp [rangeNext, if_pos hdir, if_neg hc]
        · intro j hj
          have hcj : ¬ (r.start + (j : Int) < r.end_) := by
            push_cast at hc ⊢; omega
          simp [rangeNext, if_pos hdir, if_neg hcj]
    · by_cases hc : r.end_ ≤ r.start - (i : Int) - 1
      · exfalso
        simp [rangeNext, if_neg hdir, if_pos hc] at hnone
      · constructor
        · simp [rangeNext, if_neg hdir, if_neg hc]
        · intro j hj
          have hcj : ¬ (r.end_ ≤ r.start - (j : Int) - 1) := by
            push_cast at hc ⊢; omega
          simp [rangeNext, if_neg hdir, if_neg hcj]
  · intro data i hnone j hj
    simp only [listIterNext, List.get?_eq_getElem?] at hnone ⊢
    have hlen : data.length ≤ i := by
      by_contra hlt
      rw [List.getElem?_eq_getElem (by omega)] at hnone
      cases hnone
    exact List.getElem?_eq_none (by omega)
  · intro data i hnone j hj
    simp only [mapIterNext] at hnone ⊢
    have hlen : data.length ≤ i := by
      by_contra hlt
      rw [List.get?_eq_getElem?, List.getElem?_eq_getElem (by omega)] at hnone
      cases hnone
    rw [List.get?_eq_getElem?, List.getElem?_eq_none (by omega)]

/-- Witness for the amended C7 at concrete inputs: an exhausted ascending
range stays exhausted, and an exhausted list iterator over an unchanged
list stays exhausted. -/
theorem iterator_exhaustion_permanent_amended_witness :
    (rangeNext ⟨0, 2⟩ 2).fst = none
      ∧ (rangeNext ⟨0, 2⟩ 5).fst = none
      ∧ (listIterNext [Value.number 1] 3).fst = none := by
  have h := iterator_exhaustion_permanent_amended
  refine ⟨rfl, ?_, ?_⟩
  · exact (h.1 ⟨0, 2⟩ 2 rfl).2 5 (by omega)
  · exact h.2.1 [Value.number 1] 1 rfl 3 (by omega)

/-! ## C9: a generator resuming to Empty is exhausted -/

/-- C9: in the generator branch of `ValueIterator::next`, a resumed result
of `Empty` yields `none` (iteration terminates there rather than producing
`Empty` as an element), while any other successfully resumed value, and any
error, produces an item. -/
theorem generator_empty_is_exhaustion (regs : List Value) :
    generatorNext regs (Except.ok Value.empty) = none
      ∧ (∀ v : Value, v ≠ Value.empty →
          (generatorNext regs (Except.ok v)).isSome = true)
      ∧ (∀ e : RuntimeError,
          (generatorNext regs (Except.error e)).isSome = true) := by
  refine ⟨rfl, ?_, fun e => rfl⟩
  intro v hv
  cases v with
  | empty => exact absurd rfl hv
  | bool b => rfl
  | number n => rfl
  | str s => rfl
  | list elements => rfl
  | registerList start count => rfl

/-- Witness for C9: a generator that resumes to the number `7` produces an
item, one that resumes to `Empty` produces none. -/
theorem generator_empty_is_exhaustion_witness :
    generatorNext [] (Except.ok Value.empty) = none
      ∧ (generatorNext [] (Except.ok (Value.number 7))).isSome = true := by
  have h := generator_empty_is_exhaustion []
  exact ⟨h.1, h.2.1 (Value.number 7) (by intro hq; cases hq)⟩

/-! ## C8: newline tokens and indentation -/

/-- C8: consuming a line break emits `NewLine` when the count of leading
spaces/tabs before the next non-whitespace character is zero and
`NewLineIndented` when it is positive, with the recorded indent equal to
that count (spaces and tabs each counting one); a bare carriage return not
followed by a line feed produces the `Error` token. -/
theorem newline_token_and_indent (rest : List Char) (c : Char) (hc : c ≠ '\n') :
    consumeNewline ('\n' :: rest)
        = (if countLeadingWhitespace rest = 0 then Token.newLine
           else Token.newLineIndented,
           countLeadingWhitespace rest)
      ∧ consumeNewline ('\r' :: '\n' :: rest)
          = (if countLeadingWhitespace rest = 0 then Token.newLine
             else Token.newLineIndented,
             countLeadingWhitespace rest)
      ∧ consumeNewline ('\r' :: c :: rest) = (Token.error, 0)
      ∧ consumeNewline ['\r'] = (Token.error, 0)
      ∧ (∀ ws : List Char,
           countLeadingWhitespace (' ' :: ws) = countLeadingWhitespace ws + 1
             ∧ countLeadingWhitespace ('\t' :: ws) = countLeadingWhitespace ws + 1) := by
  refine ⟨rfl, rfl, ?_, rfl, ?_⟩
  · simp only [consumeNewline]
    split
    · next heq =>
      exact absurd (List.cons.inj heq).1 hc
    · rfl
  · intro ws
    constructor <;> simp [countLeadingWhitespace, isWhitespaceChar]

/-- Witness for C8 at concrete inputs: two leading spaces give
`NewLineIndented` with indent 2, a tab counts as one, and `\r` followed by
`q` is an error. -/
theorem newline_token_and_indent_witness :
    consumeNewline ['\n', ' ', ' ', 'x'] = (Token.newLineIndented, 2)
      ∧ consumeNewline ['\n', 'x'] = (Token.newLine, 0)
      ∧ consumeNewline ['\r', 'q'] = (Token.error, 0)
      ∧ countLeadingWhitespace ['\t', ' ', 'x'] = 2 := by
  have h1 := newline_token_and_indent [' ', ' ', 'x'] 'q' (by decide)
  have h2 := newline_token_and_indent ['x'] 'q' (by decide)
  refine ⟨?_, ?_, h1.2.2.1, by decide⟩
  · rw [h1.1]; decide
  · rw [h2.1]; decide

/-! ## C10: keywords after a dot -/

/-- C10 counterexample: the `else` / `else if` check in
`consume_id_or_keyword` runs *before* the previous-token-is-`Dot` guard, so
the keyword string `else` lexes as `Else` (and `ElseIf`) even immediately
after a `Dot` token, not as an `Id`; the claim that every keyword after a
dot becomes an `Id` is therefore false. -/
theorem keyword_after_dot_counterexample :
    consumeIdOrKeyword "else" false (some Token.dot) = Token.else_
      ∧ consumeIdOrKeyword "else" true (some Token.dot) = Token.elseIf
      ∧ consumeIdOrKeyword "else" false (some Token.dot) ≠ Token.id := by
  refine ⟨rfl, rfl, by decide⟩

/-- C10 amended: for every identifier string other than `else` (in
particular every keyword other than `else` / `else if`), a token lexed
immediately after a `Dot` token is emitted as `Id` rather than as the
keyword, so keywords can appear as lookup keys such as `foo.and()`. -/
theorem keyword_after_dot_amended (id : String) (elseFollowedByIf : Bool)
    (h : id ≠ "else") :
    consumeIdOrKeyword id elseFollowedByIf (some Token.dot) = Token.id := by
  simp [consumeIdOrKeyword, h]

/-- Witness for the amended C10: `and` and `not` after a dot lex as `Id`
(and without a preceding dot, `and` still lexes as the keyword). -/
theorem keyword_after_dot_amended_witness :
    consumeIdOrKeyword "and" false (some Token.dot) = Token.id
      ∧ consumeIdOrKeyword "not" false (some Token.dot) = Token.id
      ∧ consumeIdOrKeyword "and" false none = Token.and_ := by
  refine ⟨keyword_after_dot_amended "and" false (by decide),
    keyword_after_dot_amended "not" false (by decide), by decide⟩

/-! ## C4: string escapes and where their errors arise -/

/-- C4 counterexample: an invalid escape (`\q`) and an out-of-range ASCII
escape (`\x80`) are passed through by the lexer — `consume_string_literal`
emits a successful `StringLiteral` token, not an error — and the failures
are raised by the parser's escape decoding as `SyntaxError` values, so the
claim that these errors are produced by the lexer stage as `LexerError`s is
false. -/
theorem escape_errors_not_from_lexer :
    consumeStringLiteral '"' ['\\', 'q', '"'] = Token.stringLiteral
      ∧ parseStringEscapes ['\\', 'q']
          = Except.error SyntaxError.unexpectedEscapeInString
      ∧ consumeStringLiteral '"' ['\\', 'x', '8', '0', '"'] = Token.stringLiteral
      ∧ parseStringEscapes ['\\', 'x', '8', '0']
          = Except.error SyntaxError.asciiEscapeCodeOutOfRange := by
  refine ⟨?_, ?_, ?_, ?_⟩
  · simp [consumeStringLiteral]
  · simp [parseStringEscapes]
  · simp [consumeStringLiteral]
  · simp [parseStringEscapes, isAsciiHexDigit, hexDigitValue]

/-- C4 amended: escape errors are produced by the parser's string decoding
(`parse_string`), not the lexer: a `\xNN` escape with value at most `0x7F`
decodes to the corresponding ASCII character while a larger value fails
with `AsciiEscapeCodeOutOfRange`; an unrecognized escape character fails
with `UnexpectedEscapeInString`; and a `\` followed by a newline continues
the line, skipping the following run of whitespace. -/
theorem string_escape_semantics (c1 c2 : Char) (esc : Char) (rest : List Char)
    (h1 : isAsciiHexDigit c1 = true) (h2 : isAsciiHexDigit c2 = true)
    (hesc : esc ∉ (['\n', '\r', '\\', '\'', '"', 'n', 'r', 't', 'x', 'u'] : List Char)) :
    (hexDigitValue c1 * 16 + hexDigitValue c2 ≤ 0x7f →
       parseStringEscapes ['\\', 'x', c1, c2]
         = Except.ok [Char.ofNat (hexDigitValue c1 * 16 + hexDigitValue c2)])
      ∧ (0x7f < hexDigitValue c1 * 16 + hexDigitValue c2 →
          parseStringEscapes ['\\', 'x', c1, c2]
            = Except.error SyntaxError.asciiEscapeCodeOutOfRange)
      ∧ parseStringEscapes ('\\' :: '\n' :: rest)
          = parseStringEscapes (skipLeadingWhitespace rest)
      ∧ parseStringEscapes ['\\', esc]
          = Except.error SyntaxError.unexpectedEscapeInString := by
  simp only [List.mem_cons, List.not_mem_nil, or_false] at hesc
  push_neg at hesc
  obtain ⟨hn1, hn2, hn3, hn4, hn5, hn6, hn7, hn8, hn9, hn10⟩ := hesc
  refine ⟨?_, ?_, ?_, ?_⟩
  · intro hle
    simp [parseStringEscapes, h1, h2, hle]
  · intro hgt
    simp [parseStringEscapes, h1, h2, not_le.mpr hgt]
  · rw [parseStringEscapes.eq_def]
    simp
  · simp [parseStringEscapes, hn1, hn2, hn3, hn4, hn5, hn6, hn7, hn8, hn9, hn10]

/-- Witness for the amended C4 at concrete inputs: `\x41` decodes to `A`,
a backslash-newline continues the line skipping the following spaces, and
`\q` is rejected. -/
theorem string_escape_semantics_witness :
    parseStringEscapes ['\\', 'x', '4', '1'] = Except.ok ['A']
      ∧ parseStringEscapes ['\\', '\n', ' ', ' ', 'a'] = parseStringEscapes ['a']
      ∧ parseStringEscapes ['\\', 'q']
          = Except.error SyntaxError.unexpectedEscapeInString := by
  have h := string_escape_semantics '4' '1' 'q' [' ', ' ', 'a']
    (by decide) (by decide) (by decide)
  refine ⟨?_, ?_, h.2.2.2⟩
  · rw [h.1 (by decide)]
    have hchar : Char.ofNat (hexDigitValue '4' * 16 + hexDigitValue '1') = 'A' := by
      decide
    rw [hchar]
  · rw [h.2.2.1]
    exact congrArg parseStringEscapes (by decide)

/-! ## C1: closure capture bookkeeping -/

theorem mem_insertSet (x id : ConstantIndex) (s : List ConstantIndex) :
    id ∈ insertSet x s ↔ id = x ∨ id ∈ s := by
  simp only [insertSet]
  split
  · next hx =>
    constructor
    · exact Or.inr
    · rintro (rfl | h)
      · exact hx
      · exact h
  · simp [List.mem_cons]

theorem mem_foldl_accessed (assigned : List ConstantIndex) :
    ∀ (pending acc : List ConstantIndex) (id : ConstantIndex),
      (id ∈ pending.foldl
          (fun acc x => if x ∈ assigned then acc else insertSet x acc) acc)
        ↔ id ∈ acc ∨ (id ∈ pending ∧ id ∉ assigned) := by
  intro pending
  induction pending with
  | nil => simp
  | cons x rest ih =>
    intro acc id
    simp only [List.foldl_cons]
    rw [ih]
    by_cases hx : x ∈ assigned
    · rw [if_pos hx]
      constructor
      · rintro (h | ⟨hr, hna⟩)
        · exact Or.inl h
        · exact Or.inr ⟨List.mem_cons_of_mem _ hr, hna⟩
      · rintro (h | ⟨hm, hna⟩)
        · exact Or.inl h
        · rcases List.mem_cons.mp hm with rfl | hr
          · exact absurd hx hna
          · exact Or.inr ⟨hr, hna⟩
    · rw [if_neg hx]
      constructor
      · rintro (h | ⟨hr, hna⟩)
        · rcases (mem_insertSet x id acc).mp h with rfl | hacc
          · exact Or.inr ⟨List.mem_cons_self _ _, hx⟩
          · exact Or.inl hacc
        · exact Or.inr ⟨List.mem_cons_of_mem _ hr, hna⟩
      · rintro (h | ⟨hm, hna⟩)
        · exact Or.inl ((mem_insertSet x id acc).mpr (Or.inr h))
        · rcases List.mem_cons.mp hm with rfl | hr
          · exact Or.inl ((mem_insertSet id id acc).mpr (Or.inl rfl))
          · exact Or.inr ⟨hr, hna⟩

theorem mem_foldl_insert (pending : List ConstantIndex) :
    ∀ (acc : List ConstantIndex) (id : ConstantIndex),
      id ∈ pending.foldl (fun acc x => insertSet x acc) acc
        ↔ id ∈ acc ∨ id ∈ pending := by
  induction pending with
  | nil => simp
  | cons x rest ih =>
    intro acc id
    simp only [List.foldl_cons]
    rw [ih, mem_insertSet]
    simp only [List.mem_cons]
    tauto

/-- C1 counterexample: parsing `x = x + 1` inside a function frame where
`x` is not otherwise local leaves `x` both in `accessed_non_locals` (it
becomes a capture) and in `ids_assigned_in_scope` (it becomes a local), so
the claim that no entry of the capture list is a name locally assigned in
the same function is false. -/
theorem closure_capture_counterexample :
    0 ∈ (parseAssignSelfIncrement 0 {}).accessedNonLocals
      ∧ 0 ∈ (parseAssignSelfIncrement 0 {}).idsAssignedInScope := by
  constructor <;> decide

/-- C1 amended: `finish_expression` commits captures at the end of each
expression: an identifier is added to `accessed_non_locals` exactly when it
is a pending access that is not among the ids assigned in scope by
*earlier* expressions, and the expression's own pending assignments only
join `ids_assigned_in_scope` afterwards.  Hence every non-local read
becomes a capture, no capture was locally assigned before the expression
that read it, and a name read and assigned within the same expression (as
in `x = x + 1`) becomes both a capture and a local — the parser settles the
classification in favour of a capture. -/
theorem finish_expression_commit_rule (f : Frame) (id : ConstantIndex) :
    (id ∈ f.finishExpression.accessedNonLocals
       ↔ id ∈ f.accessedNonLocals
           ∨ (id ∈ f.pendingAccesses ∧ id ∉ f.idsAssignedInScope))
      ∧ (id ∈ f.finishExpression.idsAssignedInScope
          ↔ id ∈ f.idsAssignedInScope ∨ id ∈ f.pendingAssignments) := by
  constructor
  · simpa [Frame.finishExpression] using
      mem_foldl_accessed f.idsAssignedInScope f.pendingAccesses
        f.accessedNonLocals id
  · simpa [Frame.finishExpression] using
      mem_foldl_insert f.pendingAssignments f.idsAssignedInScope id

/-! ## C5: operator precedence and associativity -/

/-- C5: the binary-operator grammar binds, tightest to loosest,
`* / %` (13), `+ -` (11), `< <= > >=` (10), `== !=` (8), `and` (5),
`or` (3), `>>` (1); the comparison and equality operators have right
binding power below their left power and so associate to the right
(`a < b < c` parses as `a < (b < c)`), while all other binary operators
associate to the left (`a - b - c` parses as `(a - b) - c`).  The first
block of conjuncts records the binding-power table; the remaining ones are
parses of three-atom expressions exhibiting each adjacent precedence pair
in both orders and the associativity of each level. -/
theorem operator_precedence_and_associativity :
    -- the binding-power table
    (operatorPrecedence Token.pipe = some (1, 2)
      ∧ operatorPrecedence Token.or_ = some (3, 4)
      ∧ operatorPrecedence Token.and_ = some (5, 6)
      ∧ operatorPrecedence Token.equal = some (8, 7)
      ∧ operatorPrecedence Token.notEqual = some (8, 7)
      ∧ operatorPrecedence Token.greater = some (10, 9)
      ∧ operatorPrecedence Token.greaterOrEqual = some (10, 9)
      ∧ operatorPrecedence Token.less = some (10, 9)
      ∧ operatorPrecedence Token.lessOrEqual = some (10, 9)
      ∧ operatorPrecedence Token.add = some (11, 12)
      ∧ operatorPrecedence Token.subtract = some (11, 12)
      ∧ operatorPrecedence Token.multiply = some (13, 14)
      ∧ operatorPrecedence Token.divide = some (13, 14)
      ∧ operatorPrecedence Token.modulo = some (13, 14))
    -- `*` binds tighter than `+`
    ∧ (∀ x y z : Nat,
        parseBinaryExpr [PTok.atom x, PTok.op Token.multiply, PTok.atom y,
            PTok.op Token.add, PTok.atom z]
          = some (BinExpr.binOp Token.add
              (BinExpr.binOp Token.multiply (BinExpr.atom x) (BinExpr.atom y))
              (BinExpr.atom z))
        ∧ parseBinaryExpr [PTok.atom x, PTok.op Token.add, PTok.atom y,
            PTok.op Token.multiply, PTok.atom z]
          = some (BinExpr.binOp Token.add (BinExpr.atom x)
              (BinExpr.binOp Token.multiply (BinExpr.atom y) (BinExpr.atom z))))
    -- `+` binds tighter than `<`
    ∧ (∀ x y z : Nat,
        parseBinaryExpr [PTok.atom x, PTok.op Token.add, PTok.atom y,
            PTok.op Token.less, PTok.atom z]
          = some (BinExpr.binOp Token.less
              (BinExpr.binOp Token.add (BinExpr.atom x) (BinExpr.atom y))
              (BinExpr.atom z))
        ∧ parseBinaryExpr [PTok.atom x, PTok.op Token.less, PTok.atom y,
            PTok.op Token.add, PTok.atom z]
          = some (BinExpr.binOp Token.less (BinExpr.atom x)
              (BinExpr.binOp Token.add (BinExpr.atom y) (BinExpr.atom z))))
    -- `<` binds tighter than `==`
    ∧ (∀ x y z : Nat,
        parseBinaryExpr [PTok.atom x, PTok.op Token.less, PTok.atom y,
            PTok.op Token.equal, PTok.atom z]
          = some (BinExpr.binOp Token.equal
              (BinExpr.binOp Token.less (BinExpr.atom x) (BinExpr.atom y))
              (BinExpr.atom z))
        ∧ parseBinaryExpr [PTok.atom x, PTok.op Token.equal, PTok.atom y,
            PTok.op Token.less, PTok.atom z]
          = some (BinExpr.binOp Token.equal (BinExpr.atom x)
              (BinExpr.binOp Token.less (BinExpr.atom y) (BinExpr.atom z))))
    -- `==` binds tighter than `and`
    ∧ (∀ x y z : Nat,
        parseBinaryExpr [PTok.atom x, PTok.op Token.equal, PTok.atom y,
            PTok.op Token.and_, PTok.atom z]
          = some (BinExpr.binOp Token.and_
              (BinExpr.binOp Token.equal (BinExpr.atom x) (BinExpr.atom y))
              (BinExpr.atom z))
        ∧ parseBinaryExpr [PTok.atom x, PTok.op Token.and_, PTok.atom y,
            PTok.op Token.equal, PTok.atom z]
          = some (BinExpr.binOp Token.and_ (BinExpr.atom x)
              (BinExpr.binOp Token.equal (BinExpr.atom y) (BinExpr.atom z))))
    -- `and` binds tighter than `or`
    ∧ (∀ x y z : Nat,
        parseBinaryExpr [PTok.atom x, PTok.op Token.and_, PTok.atom y,
            PTok.op Token.or_, PTok.atom z]
          = some (BinExpr.binOp Token.or_
              (BinExpr.binOp Token.and_ (BinExpr.atom x) (BinExpr.atom y))
              (BinExpr.atom z))
        ∧ parseBinaryExpr [PTok.atom x, PTok.op Token.or_, PTok.atom y,
            PTok.op Token.and_, PTok.atom z]
          = some (BinExpr.binOp Token.or_ (BinExpr.atom x)
              (BinExpr.binOp Token.and_ (BinExpr.atom y) (BinExpr.atom z))))
    -- `or` binds tighter than `>>`
    ∧ (∀ x y z : Nat,
        parseBinaryExpr [PTok.atom x, PTok.op Token.or_, PTok.atom y,
            PTok.op Token.pipe, PTok.atom z]
          = some (BinExpr.binOp Token.pipe
              (BinExpr.binOp Token.or_ (BinExpr.atom x) (BinExpr.atom y))
              (BinExpr.atom z))
        ∧ parseBinaryExpr [PTok.atom x, PTok.op Token.pipe, PTok.atom y,
            PTok.op Token.or_, PTok.atom z]
          = some (BinExpr.binOp Token.pipe (BinExpr.atom x)
              (BinExpr.binOp Token.or_ (BinExpr.atom y) (BinExpr.atom z))))
    -- comparisons associate to the right: `a < b < c` is `a < (b < c)`
    ∧ (∀ x y z : Nat,
        parseBinaryExpr [PTok.atom x, PTok.op Token.less, PTok.atom y,
            PTok.op Token.less, PTok.atom z]
          = some (BinExpr.binOp Token.less (BinExpr.atom x)
              (BinExpr.binOp Token.less (BinExpr.atom y) (BinExpr.atom z)))
        ∧ parseBinaryExpr [PTok.atom x, PTok.op Token.lessOrEqual, PTok.atom y,
            PTok.op Token.greater, PTok.atom z]
          = some (BinExpr.binOp Token.lessOrEqual (BinExpr.atom x)
              (BinExpr.binOp Token.greater (BinExpr.atom y) (BinExpr.atom z))))
    -- equality operators associate to the right
    ∧ (∀ x y z : Nat,
        parseBinaryExpr [PTok.atom x, PTok.op Token.equal, PTok.atom y,
            PTok.op Token.equal, PTok.atom z]
          = some (BinExpr.binOp Token.equal (BinExpr.atom x)
              (BinExpr.binOp Token.equal (BinExpr.atom y) (BinExpr.atom z)))
        ∧ parseBinaryExpr [PTok.atom x, PTok.op Token.notEqual, PTok.atom y,
            PTok.op Token.equal, PTok.atom z]
          = some (BinExpr.binOp Token.notEqual (BinExpr.atom x)
              (BinExpr.binOp Token.equal (BinExpr.atom y) (BinExpr.atom z))))
    -- all other levels associate to the left: `a - b - c` is `(a - b) - c`
    ∧ (∀ x y z : Nat,
        parseBinaryExpr [PTok.atom x, PTok.op Token.subtract, PTok.atom y,
            PTok.op Token.subtract, PTok.atom z]
          = some (BinExpr.binOp Token.subtract
              (BinExpr.binOp Token.subtract (BinExpr.atom x) (BinExpr.atom y))
              (BinExpr.atom z))
        ∧ parseBinaryExpr [PTok.atom x, PTok.op Token.divide, PTok.atom y,
            PTok.op Token.multiply, PTok.atom z]
          = some (BinExpr.binOp Token.multiply
              (BinExpr.binOp Token.divide (BinExpr.atom x) (BinExpr.atom y))
              (BinExpr.atom z))
        ∧ parseBinaryExpr [PTok.atom x, PTok.op Token.and_, PTok.atom y,
            PTok.op Token.and_, PTok.atom z]
          = some (BinExpr.binOp Token.and_
              (BinExpr.binOp Token.and_ (BinExpr.atom x) (BinExpr.atom y))
              (BinExpr.atom z))
        ∧ parseBinaryExpr [PTok.atom x, PTok.op Token.or_, PTok.atom y,
            PTok.op Token.or_, PTok.atom z]
          = some (BinExpr.binOp Token.or_
              (BinExpr.binOp Token.or_ (BinExpr.atom x) (BinExpr.atom y))
              (BinExpr.atom z))
        ∧ parseBinaryExpr [PTok.atom x, PTok.op Token.pipe, PTok.atom y,
            PTok.op Token.pipe, PTok.atom z]
          = some (BinExpr.binOp Token.pipe
              (BinExpr.binOp Token.pipe (BinExpr.atom x) (BinExpr.atom y))
              (BinExpr.atom z))) := by
  refine ⟨⟨rfl, rfl, rfl, rfl, rfl, rfl, rfl, rfl, rfl, rfl, rfl, rfl, rfl, rfl⟩,
    ?_, ?_, ?_, ?_, ?_, ?_, ?_, ?_, ?_⟩
  all_goals intro x y z
  · exact ⟨rfl, rfl⟩
  · exact ⟨rfl, rfl⟩
  · exact ⟨rfl, rfl⟩
  · exact ⟨rfl, rfl⟩
  · exact ⟨rfl, rfl⟩
  · exact ⟨rfl, rfl⟩
  · exact ⟨rfl, rfl⟩
  · exact ⟨rfl, rfl⟩
  · exact ⟨rfl, rfl, rfl, rfl, rfl⟩

/-! ## C6: purity of peeking -/

theorem fill_spec (s : TokenStream) (n : Nat) :
    ∀ (m : Nat) (l : KLexer),
      n + 1 + l.currentPeekIndex - l.peekedTokens.length ≤ m →
      KLexerInv s l →
      KLexerInv s (KLexer.fill s n l)
        ∧ (KLexer.fill s n l).currentPeekIndex + n
            < (KLexer.fill s n l).peekedTokens.length
        ∧ KLexer.consumed (KLexer.fill s n l) = KLexer.consumed l := by
  intro m
  induction m with
  | zero =>
    intro l hm hInv
    obtain ⟨hle, hempty, hne, hbuf, heq⟩ := hInv
    rw [KLexer.fill, dif_neg (by omega)]
    exact ⟨⟨hle, hempty, hne, hbuf, heq⟩, by omega, rfl⟩
  | succ m ih =>
    intro l hm hInv
    obtain ⟨hle, hempty, hne, hbuf, heq⟩ := hInv
    rw [KLexer.fill]
    by_cases hcond : l.peekedTokens.length - l.currentPeekIndex ≤ n
    · rw [dif_pos hcond]
      set l2 : KLexer :=
        { l with
          peekedTokens := l.peekedTokens ++ [s.tokens l.lexPos]
          lexPos := l.lexPos + 1 } with hl2
      have hcons2 : KLexer.consumed l2 = KLexer.consumed l := by
        simp only [KLexer.consumed, hl2, List.length_append, List.length_cons,
          List.length_nil]
        omega
      have hInv2 : KLexerInv s l2 := by
        refine ⟨?_, ?_, ?_, ?_, ?_⟩
        · simp only [hl2, List.length_append, List.length_cons, List.length_nil]
          omega
        · intro hnil
          exact absurd (congrArg List.length hnil) (by simp [hl2])
        · intro _
          simp only [hl2, List.length_append, List.length_cons, List.length_nil]
          omega
        · simp only [hl2, List.length_append, List.length_cons, List.length_nil]
          omega
        · intro i hi hilen
          simp only [hl2, List.length_append, List.length_cons,
            List.length_nil] at hilen
          rw [hcons2]
          simp only [hl2]
          by_cases hcase : i < l.peekedTokens.length
          · have hgd : (l.peekedTokens ++ [s.tokens l.lexPos]).getD i none
                = l.peekedTokens.getD i none := by
              simp [List.getD, List.getElem?_append, hcase]
            rw [hgd]
            exact heq i hi hcase
          · have hieq : i = l.peekedTokens.length := by omega
            subst hieq
            have hgd : (l.peekedTokens ++ [s.tokens l.lexPos]).getD
                l.peekedTokens.length none = s.tokens l.lexPos := by
              simp [List.getD, List.getElem?_append]
            rw [hgd]
            have : KLexer.consumed l + (l.peekedTokens.length - l.currentPeekIndex)
                = l.lexPos := by
              simp only [KLexer.consumed]
              omega
            rw [this]
      have hmeasure : n + 1 + l2.currentPeekIndex - l2.peekedTokens.length ≤ m := by
        simp only [hl2, List.length_append, List.length_cons, List.length_nil]
        omega
      obtain ⟨h1, h2, h3⟩ := ih l2 hmeasure hInv2
      exact ⟨h1, h2, h3.trans hcons2⟩
    · rw [dif_neg hcond]
      exact ⟨⟨hle, hempty, hne, hbuf, heq⟩, by omega, rfl⟩

theorem peekN_spec (s : TokenStream) (n : Nat) (l : KLexer) (hInv : KLexerInv s l) :
    (KLexer.peekN s n l).fst = s.tokens (KLexer.consumed l + n)
      ∧ KLexerInv s (KLexer.peekN s n l).snd
      ∧ KLexer.consumed (KLexer.peekN s n l).snd = KLexer.consumed l := by
  obtain ⟨hInv2, hlt, hcons⟩ := fill_spec s n _ l le_rfl hInv
  refine ⟨?_, hInv2, hcons⟩
  have hbe := hInv2.2.2.2.2 ((KLexer.fill s n l).currentPeekIndex + n)
    (by omega) hlt
  simp only [KLexer.peekN]
  rw [hbe, hcons]
  simp

theorem nextToken_spec (s : TokenStream) (l : KLexer) (hInv : KLexerInv s l) :
    (KLexer.nextToken s l).fst = s.tokens (KLexer.consumed l)
      ∧ KLexerInv s (KLexer.nextToken s l).snd
      ∧ KLexer.consumed (KLexer.nextToken s l).snd = KLexer.consumed l + 1 := by
  obtain ⟨hle, hempty, hne, hbuf, heq⟩ := hInv
  by_cases hemp : l.peekedTokens.isEmpty
  · have hnil : l.peekedTokens = [] := List.isEmpty_iff.mp hemp
    have hcpi : l.currentPeekIndex = 0 := hempty hnil
    simp only [KLexer.nextToken, hemp, if_true]
    refine ⟨?_, ⟨by simp [hnil, hcpi], fun _ => hcpi, ?_, by simp [hnil], ?_⟩, ?_⟩
    · simp [KLexer.consumed, hnil, hcpi]
    · intro hnnil2
      exact absurd hnil hnnil2
    · intro i hi hilen
      simp [hnil] at hilen
    · simp [KLexer.consumed, hnil, hcpi]
  · have hnnil : l.peekedTokens ≠ [] := by
      intro hh
      exact hemp (by simp [hh])
    have hcpilt : l.currentPeekIndex < l.peekedTokens.length := hne hnnil
    have hres : l.peekedTokens.getD l.currentPeekIndex none
        = s.tokens (KLexer.consumed l) := by
      have := heq l.currentPeekIndex le_rfl hcpilt
      simpa using this
    simp only [KLexer.nextToken, hemp, if_false, Bool.false_eq_true]
    by_cases hclear : l.currentPeekIndex + 1 = l.peekedTokens.length
    · rw [if_pos hclear]
      refine ⟨hres, ⟨by simp, fun _ => rfl, ?_, by simp, ?_⟩, ?_⟩
      · intro hnnil2
        exact absurd rfl hnnil2
      · intro i hi hilen
        simp at hilen
      · simp only [KLexer.consumed, List.length_nil, Nat.sub_zero]
        omega
    · rw [if_neg hclear]
      have hlt2 : l.currentPeekIndex + 1 < l.peekedTokens.length := by omega
      refine ⟨hres, ⟨by dsimp only; omega, ?_, fun _ => hlt2, by dsimp only; omega, ?_⟩, ?_⟩
      · intro hnil2
        exact absurd hnil2 hnnil
      · intro i hi hilen
        dsimp only at hi hilen ⊢
        have hhe := heq i (by omega) hilen
        rw [hhe]
        simp only [KLexer.consumed]
        congr 1
        omega
      · show KLexer.consumed { l with currentPeekIndex := l.currentPeekIndex + 1 }
            = KLexer.consumed l + 1
        simp only [KLexer.consumed]
        omega

theorem initLexer_inv (s : TokenStream) : KLexerInv s KLexer.init := by
  refine ⟨Nat.le_refl 0, fun _ => rfl, ?_, Nat.le_refl 0, ?_⟩
  · intro hnnil
    exact absurd rfl hnnil
  · intro i hi hilen
    simp [KLexer.init] at hilen

theorem runLexOps_spec (s : TokenStream) :
    ∀ (ops : List LexOp) (l : KLexer), KLexerInv s l →
      KLexerInv s (runLexOps s ops l)
        ∧ KLexer.consumed (runLexOps s ops l) = KLexer.consumed l + numNexts ops
        ∧ nextOutputs s ops l
            = (List.range (numNexts ops)).map
                (fun j => s.tokens (KLexer.consumed l + j)) := by
  intro ops
  induction ops with
  | nil =>
    intro l hInv
    exact ⟨hInv, by simp [runLexOps, numNexts], by simp [nextOutputs, numNexts]⟩
  | cons op ops ih =>
    intro l hInv
    cases op with
    | peek n =>
      obtain ⟨hfst, hInv2, hcons⟩ := peekN_spec s n l hInv
      obtain ⟨h1, h2, h3⟩ := ih (KLexer.peekN s n l).snd hInv2
      refine ⟨h1, ?_, ?_⟩
      · simp only [runLexOps, numNexts]
        rw [h2, hcons]
      · simp only [nextOutputs, numNexts]
        rw [h3, hcons]
    | next =>
      obtain ⟨hfst, hInv2, hcons⟩ := nextToken_spec s l hInv
      obtain ⟨h1, h2, h3⟩ := ih (KLexer.nextToken s l).snd hInv2
      refine ⟨h1, ?_, ?_⟩
      · simp only [runLexOps, numNexts]
        rw [h2, hcons]
        omega
      · simp only [nextOutputs, numNexts]
        rw [h3, hcons, hfst, List.range_succ_eq_map, List.map_cons, List.map_map]
        refine congrArg₂ List.cons (by rw [Nat.add_zero]) ?_
        refine congrArg₂ List.map ?_ rfl
        funext j
        simp only [Function.comp_apply]
        congr 1
        omega

theorem applyNexts_spec (s : TokenStream) :
    ∀ (k : Nat) (l : KLexer), KLexerInv s l →
      KLexerInv s (applyNexts s k l)
        ∧ KLexer.consumed (applyNexts s k l) = KLexer.consumed l + k := by
  intro k
  induction k with
  | zero =>
    intro l hInv
    exact ⟨hInv, by simp [applyNexts]⟩
  | succ k ih =>
    intro l hInv
    obtain ⟨hfst, hInv2, hcons⟩ := nextToken_spec s l hInv
    obtain ⟨h1, h2⟩ := ih (KLexer.nextToken s l).snd hInv2
    refine ⟨h1, ?_⟩
    simp only [applyNexts]
    rw [h2, hcons]
    omega

/-- C6: peeking is observationally pure.  For every underlying token
sequence and every interleaving of `peek_n` / `next` calls starting from a
fresh `KotoLexer`: (1) the tokens returned by the `next` calls are exactly
the underlying `TokenLexer`'s sequence, in order, unaffected by the
interleaved peeks; (2) after any interleaving, `peek_n k` returns the
underlying token at offset `k` past the tokens consumed so far; and
(3) `peek_n k` returns exactly the token that the `(k+1)`-th subsequent
`next` call then returns. -/
theorem koto_lexer_peek_pure (s : TokenStream) (ops : List LexOp) (k : Nat) :
    nextOutputs s ops KLexer.init
        = (List.range (numNexts ops)).map s.tokens
      ∧ (KLexer.peekN s k (runLexOps s ops KLexer.init)).fst
          = s.tokens (numNexts ops + k)
      ∧ (KLexer.nextToken s
            (applyNexts s k (KLexer.peekN s k (runLexOps s ops KLexer.init)).snd)).fst
          = (KLexer.peekN s k (runLexOps s ops KLexer.init)).fst := by
  have hconsinit : KLexer.consumed KLexer.init = 0 := rfl
  obtain ⟨hInvRun, hconsRun, houtputs⟩ :=
    runLexOps_spec s ops KLexer.init (initLexer_inv s)
  rw [hconsinit] at hconsRun
  obtain ⟨hpfst, hpInv, hpcons⟩ :=
    peekN_spec s k (runLexOps s ops KLexer.init) hInvRun
  obtain ⟨haInv, hacons⟩ :=
    applyNexts_spec s k (KLexer.peekN s k (runLexOps s ops KLexer.init)).snd hpInv
  obtain ⟨hnfst, _, _⟩ :=
    nextToken_spec s
      (applyNexts s k (KLexer.peekN s k (runLexOps s ops KLexer.init)).snd) haInv
  refine ⟨?_, ?_, ?_⟩
  · rw [houtputs, hconsinit]
    simp
  · rw [hpfst, hconsRun, Nat.zero_add]
  · rw [hnfst, hacons, hpcons, hpfst]

/-! ## C3: the module cache key -/

/-- C3 counterexample: `compile_module` does not canonicalize the located
module file's path; the cache key is the joined path as spelled.  On a file
system where `m.koto` and `a/../m.koto` are the same canonical file, loading
module `m` and then module `a/../m` compiles the file twice under two
different cache keys — the second invocation does not return the chunk
cached by the first (its miss flag is `true` and the cache ends up with two
entries), falsifying the claim. -/
theorem module_cache_key_not_canonical :
    cexFileSystem.canonicalizeFn ["a", "..", "m.koto"]
        = cexFileSystem.canonicalizeFn ["m.koto"]
      ∧ compileModule cexFileSystem ⟨[]⟩ ["m"] none
          = .ok ((⟨"x = 1", some ["m.koto"]⟩, ["m.koto"]),
              ⟨[(["m.koto"], ⟨"x = 1", some ["m.koto"]⟩)]⟩, true)
      ∧ compileModule cexFileSystem
            ⟨[(["m.koto"], ⟨"x = 1", some ["m.koto"]⟩)]⟩ ["a", "..", "m"] none
          = .ok ((⟨"x = 1", some ["a", "..", "m.koto"]⟩, ["a", "..", "m.koto"]),
              ⟨[(["m.koto"], ⟨"x = 1", some ["m.koto"]⟩),
                (["a", "..", "m.koto"], ⟨"x = 1", some ["a", "..", "m.koto"]⟩)]⟩,
              true) := by
  refine ⟨rfl, rfl, rfl⟩

theorem lookupChunk_append (xs : List (ModulePath × Chunk)) (mp : ModulePath)
    (c : Chunk) (h : lookupChunk xs mp = none) :
    lookupChunk (xs ++ [(mp, c)]) mp = some c := by
  induction xs with
  | nil => simp [lookupChunk]
  | cons x rest ih =>
    obtain ⟨p0, c0⟩ := x
    simp only [lookupChunk, List.cons_append] at h ⊢
    by_cases hp : p0 = mp
    · rw [if_pos hp] at h
      cases h
    · rw [if_neg hp] at h ⊢
      exact ih h

theorem loadModuleFromPath_idem (fs : FileSystem) (st : Loader) (mp : ModulePath)
    (c : Chunk) (p : ModulePath) (st2 : Loader) (flag : Bool)
    (h : loadModuleFromPath fs st mp = .ok ((c, p), st2, flag)) :
    loadModuleFromPath fs st2 mp = .ok ((c, p), st2, false) := by
  unfold loadModuleFromPath at h ⊢
  cases hlook : lookupChunk st.chunks mp with
  | some c0 =>
    rw [hlook] at h
    cases h
    rw [hlook]
  | none =>
    rw [hlook] at h
    cases hread : fs.readFn mp with
    | some script =>
      rw [hread] at h
      cases h
      rw [lookupChunk_append st.chunks mp _ hlook]
    | none =>
      rw [hread] at h
      cases h

theorem compileModule_located (fs : FileSystem) (st st2 : Loader)
    (path name : ModulePath) (chunk : Chunk) (p : ModulePath) (flag : Bool)
    (h : (if fs.existsFn (withExtension (path ++ name) "koto") then
            loadModuleFromPath fs st (withExtension (path ++ name) "koto")
          else if fs.existsFn (withExtension ((path ++ name) ++ ["main"]) "koto") then
            loadModuleFromPath fs st (withExtension ((path ++ name) ++ ["main"]) "koto")
          else .error (.ioError "Unable to find module"))
        = .ok ((chunk, p), st2, flag)) :
    (if fs.existsFn (withExtension (path ++ name) "koto") then
        loadModuleFromPath fs st2 (withExtension (path ++ name) "koto")
      else if fs.existsFn (withExtension ((path ++ name) ++ ["main"]) "koto") then
        loadModuleFromPath fs st2 (withExtension ((path ++ name) ++ ["main"]) "koto")
      else .error (.ioError "Unable to find module"))
      = .ok ((chunk, p), st2, false) := by
  by_cases h1 : fs.existsFn (withExtension (path ++ name) "koto")
  · rw [if_pos h1] at h ⊢
    exact loadModuleFromPath_idem fs st _ chunk p st2 flag h
  · rw [if_neg h1] at h ⊢
    by_cases h2 : fs.existsFn (withExtension ((path ++ name) ++ ["main"]) "koto")
    · rw [if_pos h2] at h ⊢
      exact loadModuleFromPath_idem fs st _ chunk p st2 flag h
    · rw [if_neg h2] at h
      cases h

/-- C3 amended: the cache key of `compile_module` is the located file's
joined path as spelled — the load-from path is canonicalized to obtain the
search directory, but the `name`-derived part is not.  Consequently caching
is keyed per spelling: repeating an invocation with the same name and
load-from path returns the chunk cached by the first invocation without
compiling again, while two spellings that resolve to the same canonical
file (as in the counterexample) are compiled once each under distinct
keys. -/
theorem module_cache_same_key (fs : FileSystem) (loader : Loader)
    (name : ModulePath) (loadFrom : Option ModulePath) (chunk : Chunk)
    (p : ModulePath) (loader2 : Loader) (flag : Bool)
    (h : compileModule fs loader name loadFrom = .ok ((chunk, p), loader2, flag)) :
    compileModule fs loader2 name loadFrom = .ok ((chunk, p), loader2, false) := by
  unfold compileModule at h ⊢
  cases loadFrom with
  | none =>
    dsimp only at h ⊢
    exact compileModule_located fs loader loader2 fs.currentDir name chunk p flag h
  | some lp =>
    dsimp only at h ⊢
    cases hc : fs.canonicalizeFn lp with
    | none =>
      rw [hc] at h
      dsimp only at h
      cases h
    | some canon =>
      rw [hc] at h
      dsimp only at h ⊢
      by_cases hisf : fs.isFileFn canon
      · rw [if_pos hisf] at h ⊢
        cases hpp : parentPath canon with
        | none =>
          rw [hpp] at h
          dsimp only at h
          cases h
        | some parentDir =>
          rw [hpp] at h
          dsimp only at h ⊢
          exact compileModule_located fs loader loader2 parentDir name chunk p flag h
      · rw [if_neg hisf] at h ⊢
        dsimp only at h ⊢
        exact compileModule_located fs loader loader2 canon name chunk p flag h

/-- Witness for the amended C3: repeating the `m` invocation from the
counterexample on the loader state it produced hits the cache (miss flag
`false`, state unchanged). -/
theorem module_cache_same_key_witness :
    compileModule cexFileSystem
        ⟨[(["m.koto"], ⟨"x = 1", some ["m.koto"]⟩)]⟩ ["m"] none
      = .ok ((⟨"x = 1", some ["m.koto"]⟩, ["m.koto"]),
          ⟨[(["m.koto"], ⟨"x = 1", some ["m.koto"]⟩)]⟩, false) :=
  module_cache_same_key cexFileSystem ⟨[]⟩ ["m"] none _ _ _ _ rfl

end Koto
